import Mathlib

/-!
# Verification of the Text2D glyph-atlas text-layout engine

Shallow embedding of `Src/text2d.py` (class `Text2D`): the bitmap font
loader `import_font_bmp`, the extents computation `get_text_extents`, the
vertex/UV layout `get_text_vertex_uv`, and the viewport update
`update_screen_size`.

Modelling conventions:
* Python floats are modelled as exact rationals (`ℚ`); the float literal
  `0.995` becomes the rational `199/200`.
* A text string is modelled as the list of its character codes
  (`ord c` for each character), i.e. `List ℕ`.
* The raw bytes of the font bitmap file are a `List ℕ` (each entry a byte).
* Python exceptions raised while decoding (`IndexError` from out-of-range
  byte access, `ValueError` from a numpy reshape size mismatch) are modelled
  by `Except DecodeError`; the layout loop raises nothing, so
  `get_text_vertex_uv` is a total function.
* GPU-side effects (`gloo` shader/program/texture updates) are outside the
  engine state; only the plain Python fields of the class are modelled.
-/

set_option maxHeartbeats 1000000

namespace Text2D

/-- One decoded font-bitmap image, the result of `import_font_bmp`:
declared pixel dimensions and bytes-per-pixel from the header, and the flat
list of `(R,G,B)` byte triples read from the pixel-data region (the numpy
array is kept flat; the reshape to `(width, height, bytes_px)` is recorded
by the side condition `3 * pixels.length = width * height * bytes_px`). -/
structure FontImg where
  width : ℕ
  height : ℕ
  bytes_px : ℕ
  pixels : List (ℕ × ℕ × ℕ)
deriving DecidableEq, Repr

/-- Failure modes of the loader: `indexError` models a Python `IndexError`
from indexing `contents` out of range, `reshapeError` models the numpy
`ValueError` raised when the flat pixel array cannot be reshaped to
`(width, height, bytes_px)`. -/
inductive DecodeError where
  | indexError : DecodeError
  | reshapeError : DecodeError
deriving DecidableEq, Repr

/-- The mutable fields of the `Text2D` class (constructor defaults:
`font_size_px = 12`, `f_mrg = 0`, `scr_w = scr_h = 500`,
`font_color = (1,1,1,1)`).  The `font_img` field holds the decoded atlas. -/
structure State where
  font_size_px : ℚ
  f_mrg : ℚ
  scr_w : ℚ
  scr_h : ℚ
  font_color : ℚ × ℚ × ℚ × ℚ
  font_img : Option FontImg
deriving DecidableEq

/-- `get_text_extents`: `hgt = self.font_size_px`,
`wid = len(text_string) * ((hgt / 2) + self.f_mrg)`. -/
def get_text_extents (t : State) (text_string : List ℕ) : ℚ × ℚ :=
  let hgt := t.font_size_px
  let wid := (text_string.length : ℚ) * ((hgt / 2) + t.f_mrg)
  (wid, hgt)

/-- `update_screen_size`: stores the new framebuffer size.  (The source also
pushes the pair to the shader uniform `a_screensize`; that is a GPU-side
effect outside the modelled state.) -/
def update_screen_size (t : State) (new_width new_height : ℚ) : State :=
  { t with scr_w := new_width, scr_h := new_height }

/-- `set_font_size`: sets the font height in absolute pixels. -/
def set_font_size (t : State) (new_size : ℚ) : State :=
  { t with font_size_px := new_size }

/-- `row = (ascii_code - 32) // 16` — Python `//` is floor division, which
on a negative left operand (codes below 32) rounds towards minus infinity,
hence `Int.fdiv`. -/
def glyph_row (ascii_code : ℕ) : ℤ := Int.fdiv ((ascii_code : ℤ) - 32) 16

/-- `col = ascii_code % 16` — note the source uses the raw code, not
`ascii_code - 32`. -/
def glyph_col (ascii_code : ℕ) : ℕ := ascii_code % 16

/-- `uv_x = col / 16.` -/
def glyph_uv_x (ascii_code : ℕ) : ℚ := (glyph_col ascii_code : ℚ) / 16

/-- `uv_y = row / 16.` -/
def glyph_uv_y (ascii_code : ℕ) : ℚ := (glyph_row ascii_code : ℚ) / 16

/-- The six position vertices appended for the character at index `i`:
`up_left, down_left, up_right` then `down_right, up_right, down_left`,
with `f_w = font_size_px / 2`. -/
def charQuadVerts (t : State) (pos_x pos_y : ℚ) (i : ℕ) : List (ℚ × ℚ) :=
  let f_w := t.font_size_px / 2
  let up_left := (pos_x + (i : ℚ) * f_w, pos_y + t.font_size_px)
  let up_right := (pos_x + (i : ℚ) * f_w + f_w + t.f_mrg, pos_y + t.font_size_px)
  let down_right := (up_right.1, pos_y)
  let down_left := (up_left.1, pos_y)
  [up_left, down_left, up_right, down_right, up_right, down_left]

/-- The six UV vertices appended for a character with code `ascii_code`,
in the same order as the position vertices. -/
def charQuadUVs (ascii_code : ℕ) : List (ℚ × ℚ) :=
  let uv_x := glyph_uv_x ascii_code
  let uv_y := glyph_uv_y ascii_code
  let uv_up_left := (uv_x, 0.995 - uv_y)
  let uv_up_right := (uv_x + 0.5 / 16, 0.995 - uv_y)
  let uv_down_right := (uv_up_right.1, 0.995 - (uv_y + 0.995 / 16))
  let uv_down_left := (uv_x, uv_down_right.2)
  [uv_up_left, uv_down_left, uv_up_right, uv_down_right, uv_up_right, uv_down_left]

/-- The `for i, c in enumerate(string)` loop of `get_text_vertex_uv`,
started at index `i`: per character it appends six vertices and six UVs in
lock-step. -/
def get_text_vertex_uv_from (t : State) (pos_x pos_y : ℚ) :
    ℕ → List ℕ → List (ℚ × ℚ) × List (ℚ × ℚ)
  | _, [] => ([], [])
  | i, c :: cs =>
    let rest := get_text_vertex_uv_from t pos_x pos_y (i + 1) cs
    (charQuadVerts t pos_x pos_y i ++ rest.1, charQuadUVs c ++ rest.2)

/-- `get_text_vertex_uv(string, pos_x, pos_y)`: returns `(verts, uvs)`. -/
def get_text_vertex_uv (t : State) (string : List ℕ) (pos_x pos_y : ℚ) :
    List (ℚ × ℚ) × List (ℚ × ℚ) :=
  get_text_vertex_uv_from t pos_x pos_y 0 string

/-- `contents[i]` on a Python bytearray: the byte, or `IndexError`. -/
def readByte (contents : List ℕ) (i : ℕ) : Except DecodeError ℕ :=
  match contents[i]? with
  | some b => .ok b
  | none => .error .indexError

/-- `struct.unpack("I", bytearray([contents[i], contents[i+1], contents[i+2],
contents[i+3]]))`: a little-endian 32-bit unsigned integer built from the
four bytes at offsets `i .. i+3`. -/
def decodeU32 (contents : List ℕ) (i : ℕ) : Except DecodeError ℕ := do
  let b0 ← readByte contents i
  let b1 ← readByte contents (i + 1)
  let b2 ← readByte contents (i + 2)
  let b3 ← readByte contents (i + 3)
  return b0 + 256 * b1 + 65536 * b2 + 16777216 * b3

/-- Body of the pixel loop `for i in range(sdata, fsize, 3)`: reads the
bytes at `i`, `i+1`, `i+2` as one `(r,g,b)` triple per iteration.  The
extra argument `n` is a structural bound on the number of remaining loop
steps (any `n ≥ fsize - i` gives the loop's behaviour; the wrapper below
passes `fsize - i`, which is exact). -/
def readTriplesGo (contents : List ℕ) (fsize : ℕ) :
    ℕ → ℕ → Except DecodeError (List (ℕ × ℕ × ℕ))
  | _, 0 => pure []
  | i, n + 1 =>
    if i < fsize then do
      let r ← readByte contents i
      let g ← readByte contents (i + 1)
      let b ← readByte contents (i + 2)
      let rest ← readTriplesGo contents fsize (i + 3) n
      return (r, g, b) :: rest
    else
      pure []

/-- The pixel loop `for i in range(sdata, fsize, 3)` started at `i`. -/
def readTriples (contents : List ℕ) (fsize i : ℕ) :
    Except DecodeError (List (ℕ × ℕ × ℕ)) :=
  readTriplesGo contents fsize i (fsize - i)

/-- `import_font_bmp`, decoding the raw file bytes: file size as little-endian
32-bit at offset 2; data start as the SINGLE byte at offset 10; width and
height as little-endian 32-bit at offsets 18 and 22; bits-per-pixel as the
byte at offset 28 with `bytes_px = bpp // 8`; then the fixed-stride-3 pixel
loop; finally the numpy reshape of the `(N, 3)` array to
`(f_wid, f_hgt, bytes_px)`, which succeeds exactly when the element counts
agree: `3 * N = f_wid * f_hgt * bytes_px`. -/
def import_font_bmp (contents : List ℕ) : Except DecodeError FontImg := do
  let fsize ← decodeU32 contents 2
  let sdata ← readByte contents 10
  let f_wid ← decodeU32 contents 18
  let f_hgt ← decodeU32 contents 22
  let bpp ← readByte contents 28
  let bytes_px := bpp / 8
  let pix_lst ← readTriples contents fsize sdata
  if 3 * pix_lst.length = f_wid * f_hgt * bytes_px then
    return ⟨f_wid, f_hgt, bytes_px, pix_lst⟩
  else
    .error .reshapeError

/-- The constructor-default engine state (fields of `__init__`, with the
atlas not loaded). -/
def t0 : State := ⟨12, 0, 500, 500, (1, 1, 1, 1), none⟩

/-- The scenario state of the spec: `font_size_px = 16`, margin 0. -/
def t16 : State := ⟨16, 0, 500, 500, (1, 1, 1, 1), none⟩

/-- C1: for any style state, `get_text_extents` returns
`width = len(s) * (pixelHeight/2 + lateralMarginPx)` and
`height = pixelHeight`, and the result depends only on the length of the
string, not on which characters it contains. -/
theorem get_text_extents_formula (t : State) (s : List ℕ)
    (hh : 0 < t.font_size_px) (hm : 0 ≤ t.f_mrg) :
    (get_text_extents t s).1 = (s.length : ℚ) * (t.font_size_px / 2 + t.f_mrg) ∧
    (get_text_extents t s).2 = t.font_size_px ∧
    ∀ s' : List ℕ, s'.length = s.length →
      get_text_extents t s' = get_text_extents t s := by
  refine ⟨rfl, rfl, fun s' h => ?_⟩
  simp [get_text_extents, h]

/-- Witness for C1 at the spec scenario: `pixelHeight = 16`, string "Hi"
(codes 72, 105) gives extents `(16, 16)`. -/
theorem get_text_extents_formula_witness :
    (get_text_extents t16 [72, 105]).1 = 16 ∧ (get_text_extents t16 [72, 105]).2 = 16 := by
  have h := get_text_extents_formula t16 [72, 105] (by norm_num [t16]) (by norm_num [t16])
  refine ⟨?_, h.2.1⟩
  rw [h.1]
  norm_num [t16]

/-- Both output sequences of the layout loop grow by six entries per
character, independently of the start index. -/
theorem get_text_vertex_uv_from_lengths (t : State) (x y : ℚ) :
    ∀ (s : List ℕ) (i : ℕ),
      (get_text_vertex_uv_from t x y i s).1.length = 6 * s.length ∧
      (get_text_vertex_uv_from t x y i s).2.length = 6 * s.length := by
  intro s
  induction s with
  | nil => intro i; simp [get_text_vertex_uv_from]
  | cons c cs ih =>
    intro i
    have h := ih (i + 1)
    constructor
    · simp [get_text_vertex_uv_from, charQuadVerts, h.1]
      ring
    · simp [get_text_vertex_uv_from, charQuadUVs, h.2]
      ring

/-- C2: for a non-empty string whose codes all lie in [32, 255],
`get_text_vertex_uv` returns `6 * len(s)` position entries and the same
number of UV entries. -/
theorem get_text_vertex_uv_lengths (t : State) (s : List ℕ) (x y : ℚ)
    (hne : s ≠ []) (hcodes : ∀ c ∈ s, 32 ≤ c ∧ c ≤ 255) :
    (get_text_vertex_uv t s x y).1.length = 6 * s.length ∧
    (get_text_vertex_uv t s x y).2.length = (get_text_vertex_uv t s x y).1.length := by
  have h := get_text_vertex_uv_from_lengths t x y s 0
  exact ⟨h.1, h.2.trans h.1.symm⟩

/-- Witness for C2: the scenario string "Hi" at anchor (10, 10) yields 12
position entries and 12 UV entries. -/
theorem get_text_vertex_uv_lengths_witness :
    (get_text_vertex_uv t16 [72, 105] 10 10).1.length = 6 * 2 ∧
    (get_text_vertex_uv t16 [72, 105] 10 10).2.length =
      (get_text_vertex_uv t16 [72, 105] 10 10).1.length :=
  get_text_vertex_uv_lengths t16 [72, 105] 10 10 (by decide) (by decide)

/-- Each quad contributes exactly six position vertices. -/
theorem charQuadVerts_length (t : State) (x y : ℚ) (i : ℕ) :
    (charQuadVerts t x y i).length = 6 := rfl

/-- Each quad contributes exactly six UV vertices. -/
theorem charQuadUVs_length (c : ℕ) : (charQuadUVs c).length = 6 := rfl

/-- Unfolding of the loop body on a cons cell. -/
theorem get_text_vertex_uv_from_cons (t : State) (x y : ℚ) (i : ℕ) (c : ℕ) (cs : List ℕ) :
    get_text_vertex_uv_from t x y i (c :: cs) =
      (charQuadVerts t x y i ++ (get_text_vertex_uv_from t x y (i + 1) cs).1,
       charQuadUVs c ++ (get_text_vertex_uv_from t x y (i + 1) cs).2) := rfl

/-- Entry `6*j + k` (for `k < 6`) of either output sequence of the loop
started at index `i` is entry `k` of the quad of the `j`-th remaining
character. -/
theorem get_text_vertex_uv_from_getElem (t : State) (x y : ℚ) :
    ∀ (s : List ℕ) (i j k : ℕ), j < s.length → k < 6 →
      (get_text_vertex_uv_from t x y i s).1[6 * j + k]? =
        (charQuadVerts t x y (i + j))[k]? ∧
      (get_text_vertex_uv_from t x y i s).2[6 * j + k]? =
        (charQuadUVs (s.getD j 0))[k]? := by
  intro s
  induction s with
  | nil =>
    intro i j k hj _hk
    simp at hj
  | cons c cs ih =>
    intro i j k hj hk
    rw [get_text_vertex_uv_from_cons]
    cases j with
    | zero =>
      constructor
      · rw [List.getElem?_append]
        simp [charQuadVerts_length, hk]
      · rw [List.getElem?_append]
        simp [charQuadUVs_length, hk]
    | succ j' =>
      have hj' : j' < cs.length := by simpa using hj
      have h6 : 6 * (j' + 1) + k = 6 + (6 * j' + k) := by ring
      have hih := ih (i + 1) j' k hj' hk
      constructor
      · rw [List.getElem?_append]
        rw [charQuadVerts_length]
        have hge : ¬ (6 * (j' + 1) + k < 6) := by omega
        simp only [hge, if_false]
        have : 6 * (j' + 1) + k - 6 = 6 * j' + k := by omega
        rw [this, hih.1]
        have : i + 1 + j' = i + (j' + 1) := by omega
        rw [this]
      · rw [List.getElem?_append]
        rw [charQuadUVs_length]
        have hge : ¬ (6 * (j' + 1) + k < 6) := by omega
        simp only [hge, if_false]
        have : 6 * (j' + 1) + k - 6 = 6 * j' + k := by omega
        rw [this, hih.2]
        rfl

/-- C3: for every character index `i` of the laid-out string, with
`f_w = pixelHeight / 2`, the six emitted position vertices of that
character are `upLeft, downLeft, upRight, downRight, upRight, downLeft`
with `upLeft = (x + i*f_w, y + pixelHeight)`,
`upRight = (x + i*f_w + f_w + lateralMarginPx, y + pixelHeight)` and the
two down corners at height `y`; and in the spec scenario
(`pixelHeight = 16`, anchor `(10,10)`) the first emitted vertex is
`(10, 26)`. -/
theorem get_text_vertex_uv_quad_corners (t : State) (s : List ℕ) (x y : ℚ) (i : ℕ)
    (hi : i < s.length) :
    ((get_text_vertex_uv t s x y).1[6 * i]? =
        some (x + (i : ℚ) * (t.font_size_px / 2), y + t.font_size_px) ∧
     (get_text_vertex_uv t s x y).1[6 * i + 1]? =
        some (x + (i : ℚ) * (t.font_size_px / 2), y) ∧
     (get_text_vertex_uv t s x y).1[6 * i + 2]? =
        some (x + (i : ℚ) * (t.font_size_px / 2) + t.font_size_px / 2 + t.f_mrg,
              y + t.font_size_px) ∧
     (get_text_vertex_uv t s x y).1[6 * i + 3]? =
        some (x + (i : ℚ) * (t.font_size_px / 2) + t.font_size_px / 2 + t.f_mrg, y) ∧
     (get_text_vertex_uv t s x y).1[6 * i + 4]? =
        some (x + (i : ℚ) * (t.font_size_px / 2) + t.font_size_px / 2 + t.f_mrg,
              y + t.font_size_px) ∧
     (get_text_vertex_uv t s x y).1[6 * i + 5]? =
        some (x + (i : ℚ) * (t.font_size_px / 2), y)) ∧
    (get_text_vertex_uv t16 [72, 105] 10 10).1[0]? = some (10, 26) := by
  constructor
  · simp only [get_text_vertex_uv]
    have h0 := (get_text_vertex_uv_from_getElem t x y s 0 i 0 hi (by omega)).1
    have h1 := (get_text_vertex_uv_from_getElem t x y s 0 i 1 hi (by omega)).1
    have h2 := (get_text_vertex_uv_from_getElem t x y s 0 i 2 hi (by omega)).1
    have h3 := (get_text_vertex_uv_from_getElem t x y s 0 i 3 hi (by omega)).1
    have h4 := (get_text_vertex_uv_from_getElem t x y s 0 i 4 hi (by omega)).1
    have h5 := (get_text_vertex_uv_from_getElem t x y s 0 i 5 hi (by omega)).1
    simp only [Nat.add_zero] at h0
    refine ⟨?_, ?_, ?_, ?_, ?_, ?_⟩
    · rw [h0]
      simp [charQuadVerts, Nat.zero_add]
    · rw [h1]
      simp [charQuadVerts, Nat.zero_add]
    · rw [h2]
      simp [charQuadVerts, Nat.zero_add]
    · rw [h3]
      simp [charQuadVerts, Nat.zero_add]
    · rw [h4]
      simp [charQuadVerts, Nat.zero_add]
    · rw [h5]
      simp [charQuadVerts, Nat.zero_add]
  · norm_num [get_text_vertex_uv, get_text_vertex_uv_from, charQuadVerts, t16]

/-- Witness for C3 at the spec scenario: the quad of character 0 of "Hi". -/
theorem get_text_vertex_uv_quad_corners_witness :
    (get_text_vertex_uv t16 [72, 105] 10 10).1[0]? = some (10, 26) :=
  (get_text_vertex_uv_quad_corners t16 [72, 105] 10 10 0 (by decide)).2

/-- C4 (amended): the layout loop does NOT validate character codes: for
every string, including strings with codes outside [32, 255], it produces
the full `6 * len(s)` entries in both sequences and no error. -/
theorem get_text_vertex_uv_total (t : State) (s : List ℕ) (x y : ℚ) :
    (get_text_vertex_uv t s x y).1.length = 6 * s.length ∧
    (get_text_vertex_uv t s x y).2.length = 6 * s.length :=
  get_text_vertex_uv_from_lengths t x y s 0

/-- C4 counterexample: the control character with code 10 (`\n`, below 32)
does not make layout fail: a full quad is emitted for it, and its row is
computed by floor division as `(10 - 32) // 16 = -2`, giving a UV
y-component `0.995 + 2/16 = 1.12` that lies outside `[0,1]`. -/
theorem get_text_vertex_uv_control_char :
    (get_text_vertex_uv t0 [10] 0 0).1.length = 6 ∧
    (get_text_vertex_uv t0 [10] 0 0).2.length = 6 ∧
    glyph_row 10 = -2 ∧
    (get_text_vertex_uv t0 [10] 0 0).2[0]? = some ((5 : ℚ) / 8, (28 : ℚ) / 25) := by
  refine ⟨(get_text_vertex_uv_from_lengths t0 0 0 [10] 0).1,
          (get_text_vertex_uv_from_lengths t0 0 0 [10] 0).2, by decide, ?_⟩
  have hrow : glyph_row 10 = -2 := by decide
  norm_num [get_text_vertex_uv, get_text_vertex_uv_from, charQuadUVs, glyph_uv_x,
    glyph_uv_y, glyph_col, hrow]

/-- For codes in [32, 255] the glyph row computed by floor division lies in
[0, 13]. -/
theorem glyph_row_bounds (c : ℕ) (h32 : 32 ≤ c) (h255 : c ≤ 255) :
    0 ≤ glyph_row c ∧ glyph_row c ≤ 13 := by
  unfold glyph_row
  rw [Int.fdiv_eq_ediv _ (by omega)]
  omega

/-- For a code in [32, 255], every component of the six UV vertices of its
quad lies in [0, 1]. -/
theorem charQuadUVs_bounds (c : ℕ) (h32 : 32 ≤ c) (h255 : c ≤ 255) :
    ∀ p ∈ charQuadUVs c, 0 ≤ p.1 ∧ p.1 ≤ 1 ∧ 0 ≤ p.2 ∧ p.2 ≤ 1 := by
  obtain ⟨hr0, hr13⟩ := glyph_row_bounds c h32 h255
  have hc15 : glyph_col c ≤ 15 := by
    unfold glyph_col
    omega
  have hrq0 : (0 : ℚ) ≤ (glyph_row c : ℚ) := by exact_mod_cast hr0
  have hrq13 : (glyph_row c : ℚ) ≤ 13 := by exact_mod_cast hr13
  have hcq0 : (0 : ℚ) ≤ (glyph_col c : ℚ) := by positivity
  have hcq15 : (glyph_col c : ℚ) ≤ 15 := by exact_mod_cast hc15
  intro p hp
  simp only [charQuadUVs, glyph_uv_x, glyph_uv_y, List.mem_cons,
    List.not_mem_nil, or_false] at hp
  rcases hp with h | h | h | h | h | h <;> subst h <;>
    refine ⟨by norm_num; linarith, by norm_num; linarith,
            by norm_num; linarith, by norm_num; linarith⟩

/-- Every UV vertex emitted by the loop for a string of in-range codes has
both components in [0, 1]. -/
theorem get_text_vertex_uv_from_uv_mem (t : State) (x y : ℚ) :
    ∀ (s : List ℕ) (i : ℕ), (∀ c ∈ s, 32 ≤ c ∧ c ≤ 255) →
      ∀ p ∈ (get_text_vertex_uv_from t x y i s).2,
        0 ≤ p.1 ∧ p.1 ≤ 1 ∧ 0 ≤ p.2 ∧ p.2 ≤ 1 := by
  intro s
  induction s with
  | nil =>
    intro i _ p hp
    simp [get_text_vertex_uv_from] at hp
  | cons c cs ih =>
    intro i hc p hp
    rw [get_text_vertex_uv_from_cons] at hp
    simp only [List.mem_append] at hp
    rcases hp with hp | hp
    · exact charQuadUVs_bounds c (hc c (by simp)).1 (hc c (by simp)).2 p hp
    · exact ih (i + 1) (fun c' h => hc c' (by simp [h])) p hp

/-- C7: for a string of codes in [32, 255], every texture-coordinate
component produced by `get_text_vertex_uv` lies in [0, 1]; moreover the
cell lookup for code 32 gives `row = 0`, `col = 0`, `u = 0`, `v = 0`, and
for code 47 gives `row = 0`, `col = 15`. -/
theorem get_text_vertex_uv_uv_in_range (t : State) (s : List ℕ) (x y : ℚ)
    (hcodes : ∀ c ∈ s, 32 ≤ c ∧ c ≤ 255) :
    (∀ p ∈ (get_text_vertex_uv t s x y).2,
       0 ≤ p.1 ∧ p.1 ≤ 1 ∧ 0 ≤ p.2 ∧ p.2 ≤ 1) ∧
    glyph_row 32 = 0 ∧ glyph_col 32 = 0 ∧ glyph_uv_x 32 = 0 ∧ glyph_uv_y 32 = 0 ∧
    glyph_row 47 = 0 ∧ glyph_col 47 = 15 := by
  have h32 : glyph_row 32 = 0 := by decide
  refine ⟨get_text_vertex_uv_from_uv_mem t x y s 0 hcodes, h32, by decide, ?_, ?_,
    by decide, by decide⟩
  · norm_num [glyph_uv_x, glyph_col]
  · norm_num [glyph_uv_y, h32]

/-- Witness for C7: instantiated at the string " " (code 32), whose cell
lookup is row 0, column 0, `u = v = 0`. -/
theorem get_text_vertex_uv_uv_in_range_witness :
    glyph_row 32 = 0 ∧ glyph_col 32 = 0 ∧ glyph_uv_x 32 = 0 ∧ glyph_uv_y 32 = 0 := by
  have h := get_text_vertex_uv_uv_in_range t0 [32] 0 0 (by decide)
  exact ⟨h.2.1, h.2.2.1, h.2.2.2.1, h.2.2.2.2.1⟩

/-- Shifting the anchor x by `d` shifts exactly the x-component of each of
the six position vertices of a quad. -/
theorem charQuadVerts_shift_x (t : State) (x y d : ℚ) (i : ℕ) :
    charQuadVerts t (x + d) y i =
      (charQuadVerts t x y i).map (fun p => (p.1 + d, p.2)) := by
  simp only [charQuadVerts, List.map_cons, List.map_nil, Prod.mk.injEq,
    List.cons.injEq]
  norm_num
  all_goals and_intros
  all_goals ring

/-- Shifting the anchor y by `d` shifts exactly the y-component of each of
the six position vertices of a quad. -/
theorem charQuadVerts_shift_y (t : State) (x y d : ℚ) (i : ℕ) :
    charQuadVerts t x (y + d) i =
      (charQuadVerts t x y i).map (fun p => (p.1, p.2 + d)) := by
  simp only [charQuadVerts, List.map_cons, List.map_nil, Prod.mk.injEq,
    List.cons.injEq]
  norm_num
  all_goals and_intros
  all_goals ring

/-- Translation behaviour of the loop, for any start index. -/
theorem get_text_vertex_uv_from_translate (t : State) (x y d : ℚ) :
    ∀ (s : List ℕ) (i : ℕ),
      (get_text_vertex_uv_from t (x + d) y i s).1 =
        (get_text_vertex_uv_from t x y i s).1.map (fun p => (p.1 + d, p.2)) ∧
      (get_text_vertex_uv_from t (x + d) y i s).2 =
        (get_text_vertex_uv_from t x y i s).2 ∧
      (get_text_vertex_uv_from t x (y + d) i s).1 =
        (get_text_vertex_uv_from t x y i s).1.map (fun p => (p.1, p.2 + d)) ∧
      (get_text_vertex_uv_from t x (y + d) i s).2 =
        (get_text_vertex_uv_from t x y i s).2 := by
  intro s
  induction s with
  | nil => intro i; simp [get_text_vertex_uv_from]
  | cons c cs ih =>
    intro i
    obtain ⟨ih1, ih2, ih3, ih4⟩ := ih (i + 1)
    rw [get_text_vertex_uv_from_cons, get_text_vertex_uv_from_cons,
      get_text_vertex_uv_from_cons]
    refine ⟨?_, ?_, ?_, ?_⟩
    · simp only [List.map_append, ih1, charQuadVerts_shift_x]
    · simp only [ih2]
    · simp only [List.map_append, ih3, charQuadVerts_shift_y]
    · simp only [ih4]

/-- C8: `layout(s, x+d, y)` equals `layout(s, x, y)` with every position's
x-component shifted by `d` and the UVs unchanged; analogously for the
y-component. -/
theorem get_text_vertex_uv_translation (t : State) (s : List ℕ) (x y d : ℚ) :
    (get_text_vertex_uv t s (x + d) y).1 =
      (get_text_vertex_uv t s x y).1.map (fun p => (p.1 + d, p.2)) ∧
    (get_text_vertex_uv t s (x + d) y).2 = (get_text_vertex_uv t s x y).2 ∧
    (get_text_vertex_uv t s x (y + d)).1 =
      (get_text_vertex_uv t s x y).1.map (fun p => (p.1, p.2 + d)) ∧
    (get_text_vertex_uv t s x (y + d)).2 = (get_text_vertex_uv t s x y).2 :=
  get_text_vertex_uv_from_translate t x y d s 0

/-- The layout loop reads only the font-style fields of the state, so any
state sharing `font_size_px` and `f_mrg` produces the same output. -/
theorem get_text_vertex_uv_from_style_only (t t' : State)
    (hsz : t'.font_size_px = t.font_size_px) (hmr : t'.f_mrg = t.f_mrg) (x y : ℚ) :
    ∀ (s : List ℕ) (i : ℕ),
      get_text_vertex_uv_from t' x y i s = get_text_vertex_uv_from t x y i s := by
  intro s
  induction s with
  | nil => intro i; rfl
  | cons c cs ih =>
    intro i
    rw [get_text_vertex_uv_from_cons, get_text_vertex_uv_from_cons, ih (i + 1)]
    simp [charQuadVerts, hsz, hmr]

/-- C9: `update_screen_size` changes only the stored screen size; the
layout output for any string, anchor and style is unchanged by it. -/
theorem get_text_vertex_uv_viewport_independent (t : State) (w h : ℚ)
    (s : List ℕ) (x y : ℚ) :
    get_text_vertex_uv (update_screen_size t w h) s x y =
      get_text_vertex_uv t s x y ∧
    (update_screen_size t w h).font_size_px = t.font_size_px ∧
    (update_screen_size t w h).f_mrg = t.f_mrg ∧
    (update_screen_size t w h).font_color = t.font_color ∧
    (update_screen_size t w h).font_img = t.font_img ∧
    (update_screen_size t w h).scr_w = w ∧
    (update_screen_size t w h).scr_h = h :=
  ⟨get_text_vertex_uv_from_style_only t (update_screen_size t w h) rfl rfl x y s 0,
   rfl, rfl, rfl, rfl, rfl, rfl⟩

/-- Upper bound on the x-component of every position vertex emitted by the
loop started at character index `i`. -/
theorem get_text_vertex_uv_from_x_le (t : State) (x y : ℚ)
    (hm : 0 ≤ t.f_mrg) (hh : 0 ≤ t.font_size_px) :
    ∀ (s : List ℕ) (i : ℕ), ∀ p ∈ (get_text_vertex_uv_from t x y i s).1,
      p.1 ≤ x + ((i : ℚ) + s.length) * (t.font_size_px / 2) + t.f_mrg := by
  have hfw : 0 ≤ t.font_size_px / 2 := by linarith
  intro s
  induction s with
  | nil =>
    intro i p hp
    simp [get_text_vertex_uv_from] at hp
  | cons c cs ih =>
    intro i p hp
    rw [get_text_vertex_uv_from_cons] at hp
    simp only [List.mem_append] at hp
    have hlen : (0 : ℚ) ≤ (cs.length : ℚ) := by positivity
    have hmul : (0 : ℚ) ≤ (cs.length : ℚ) * (t.font_size_px / 2) :=
      mul_nonneg hlen hfw
    rcases hp with hp | hp
    · simp only [charQuadVerts, List.mem_cons, List.not_mem_nil, or_false] at hp
      rcases hp with h | h | h | h | h | h <;> subst h <;>
        (simp only [List.length_cons]; push_cast; nlinarith [hmul])
    · have hb := ih (i + 1) p hp
      simp only [List.length_cons]
      push_cast at hb ⊢
      linarith

/-- The bound above is attained (by the `up_right`/`down_right` corner of
the last character). -/
theorem get_text_vertex_uv_from_x_attained (t : State) (x y : ℚ) :
    ∀ (s : List ℕ), s ≠ [] → ∀ (i : ℕ),
      ∃ p ∈ (get_text_vertex_uv_from t x y i s).1,
        p.1 = x + ((i : ℚ) + s.length) * (t.font_size_px / 2) + t.f_mrg := by
  intro s
  induction s with
  | nil => intro h; exact absurd rfl h
  | cons c cs ih =>
    intro _ i
    rw [get_text_vertex_uv_from_cons]
    rcases eq_or_ne cs [] with hcs | hcs
    · subst hcs
      refine ⟨(x + (i : ℚ) * (t.font_size_px / 2) + t.font_size_px / 2 + t.f_mrg,
               y + t.font_size_px), ?_, ?_⟩
      · simp [charQuadVerts]
      · simp only [List.length_cons, List.length_nil]
        push_cast
        ring
    · obtain ⟨p, hp, hpe⟩ := ih hcs (i + 1)
      refine ⟨p, by simp [hp], ?_⟩
      rw [hpe]
      simp only [List.length_cons]
      push_cast
      ring

/-- C10: for a non-empty string of length `n`, the maximum x among the
positions is `anchorX + n*(pixelHeight/2) + lateralMarginPx`, which is
`(n-1)*lateralMarginPx` short of `anchorX + computeExtents(s).width`; with
positive margin and more than one character the geometry is strictly
narrower than the reported extents, and consecutive quads overlap
horizontally by exactly the margin (quad `i`'s right edge minus quad
`i+1`'s left edge equals `lateralMarginPx`). -/
theorem get_text_vertex_uv_max_x (t : State) (s : List ℕ) (x y : ℚ)
    (hne : s ≠ []) (hm : 0 ≤ t.f_mrg) (hh : 0 ≤ t.font_size_px) :
    (∀ p ∈ (get_text_vertex_uv t s x y).1,
       p.1 ≤ x + (s.length : ℚ) * (t.font_size_px / 2) + t.f_mrg) ∧
    (∃ p ∈ (get_text_vertex_uv t s x y).1,
       p.1 = x + (s.length : ℚ) * (t.font_size_px / 2) + t.f_mrg) ∧
    (x + (get_text_extents t s).1)
        - (x + (s.length : ℚ) * (t.font_size_px / 2) + t.f_mrg)
      = ((s.length : ℚ) - 1) * t.f_mrg ∧
    (0 < t.f_mrg → 1 < s.length →
       x + (s.length : ℚ) * (t.font_size_px / 2) + t.f_mrg
         < x + (get_text_extents t s).1) ∧
    (∀ i : ℕ, i + 1 < s.length → ∀ a b : ℚ × ℚ,
       (get_text_vertex_uv t s x y).1[6 * i + 3]? = some a →
       (get_text_vertex_uv t s x y).1[6 * (i + 1) + 1]? = some b →
       a.1 - b.1 = t.f_mrg) := by
  refine ⟨?_, ?_, ?_, ?_, ?_⟩
  · intro p hp
    have h := get_text_vertex_uv_from_x_le t x y hm hh s 0 p hp
    simpa using h
  · have h := get_text_vertex_uv_from_x_attained t x y s hne 0
    simpa using h
  · simp only [get_text_extents]
    ring
  · intro hmp hlen
    have h2 : (2 : ℚ) ≤ (s.length : ℚ) := by exact_mod_cast hlen
    simp only [get_text_extents]
    nlinarith
  · intro i hi a b ha hb
    have h3 := (get_text_vertex_uv_from_getElem t x y s 0 i 3 (by omega) (by omega)).1
    have h1 := (get_text_vertex_uv_from_getElem t x y s 0 (i + 1) 1 (by omega) (by omega)).1
    rw [get_text_vertex_uv] at ha hb
    rw [h3] at ha
    rw [h1] at hb
    simp only [charQuadVerts, List.getElem?_cons_succ, List.getElem?_cons_zero,
      Option.some.injEq] at ha hb
    rw [← ha, ← hb]
    push_cast
    ring

/-- Witness for C10 at the spec scenario: for "Hi" at anchor (10, 10) with
`pixelHeight = 16` and margin 0, some position vertex has
x-coordinate `10 + 2 * 8 + 0 = 26`. -/
theorem get_text_vertex_uv_max_x_witness :
    ∃ p ∈ (get_text_vertex_uv t16 [72, 105] 10 10).1, p.1 = 26 := by
  have h := get_text_vertex_uv_max_x t16 [72, 105] 10 10 (by decide)
    (by norm_num [t16]) (by norm_num [t16])
  obtain ⟨p, hp, hpe⟩ := h.2.1
  refine ⟨p, hp, ?_⟩
  rw [hpe]
  norm_num [t16]

/-- Bind on a successful `Except` computation applies the continuation. -/
theorem except_bind_ok {α β : Type} (a : α) (f : α → Except DecodeError β) :
    (Bind.bind (Except.ok a) f : Except DecodeError β) = f a := rfl

/-- Bind on a failed `Except` computation propagates the error. -/
theorem except_bind_err {α β : Type} (e : DecodeError) (f : α → Except DecodeError β) :
    (Bind.bind (Except.error e) f : Except DecodeError β) = Except.error e := rfl

/-- An in-range byte access succeeds with the byte at that index. -/
theorem readByte_ok_of_lt (l : List ℕ) (i : ℕ) (h : i < l.length) :
    readByte l i = .ok (l.getD i 0) := by
  unfold readByte
  rw [List.getElem?_eq_getElem h]
  simp [List.getD, List.getElem?_eq_getElem h]

/-- An out-of-range byte access raises `IndexError`. -/
theorem readByte_err_of_le (l : List ℕ) (i : ℕ) (h : l.length ≤ i) :
    readByte l i = .error .indexError := by
  unfold readByte
  rw [List.getElem?_eq_none h]

/-- `readByte` succeeds exactly on in-range indices, with the indexed byte. -/
theorem readByte_ok_iff (l : List ℕ) (i b : ℕ) :
    readByte l i = .ok b ↔ l[i]? = some b := by
  unfold readByte
  cases h : l[i]? <;> simp

/-- A byte read that succeeds on `l.dropLast` succeeds with the same value
on `l` (`dropLast` is a prefix). -/
theorem readByte_dropLast (l : List ℕ) (i b : ℕ)
    (h : readByte l.dropLast i = .ok b) : readByte l i = .ok b := by
  rw [readByte_ok_iff] at h ⊢
  rw [List.dropLast_eq_take] at h
  by_cases hi : i < l.length - 1
  · rw [List.getElem?_take_of_lt hi] at h
    exact h
  · rw [List.getElem?_eq_none (by simp [List.length_take]; omega)] at h
    exact absurd h (by simp)

/-- A 32-bit field decode that succeeds on `l.dropLast` succeeds with the
same value on `l`. -/
theorem decodeU32_dropLast (l : List ℕ) (i v : ℕ)
    (h : decodeU32 l.dropLast i = .ok v) : decodeU32 l i = .ok v := by
  unfold decodeU32 at h ⊢
  cases h0 : readByte l.dropLast i with
  | error e => rw [h0, except_bind_err] at h; exact absurd h (by simp)
  | ok b0 =>
  rw [h0, except_bind_ok] at h
  cases h1 : readByte l.dropLast (i + 1) with
  | error e => rw [h1, except_bind_err] at h; exact absurd h (by simp)
  | ok b1 =>
  rw [h1, except_bind_ok] at h
  cases h2 : readByte l.dropLast (i + 2) with
  | error e => rw [h2, except_bind_err] at h; exact absurd h (by simp)
  | ok b2 =>
  rw [h2, except_bind_ok] at h
  cases h3 : readByte l.dropLast (i + 3) with
  | error e => rw [h3, except_bind_err] at h; exact absurd h (by simp)
  | ok b3 =>
  rw [h3, except_bind_ok] at h
  rw [readByte_dropLast l i b0 h0, except_bind_ok,
    readByte_dropLast l (i + 1) b1 h1, except_bind_ok,
    readByte_dropLast l (i + 2) b2 h2, except_bind_ok,
    readByte_dropLast l (i + 3) b3 h3, except_bind_ok]
  exact h

/-- Success behaviour of the pixel loop: when the whole declared file fits
inside `contents` and the data region is a whole number of triples, the
loop returns `(fsize - i) / 3` triples, the `j`-th being the bytes at
offsets `i + 3j`, `i + 3j + 1`, `i + 3j + 2`. -/
theorem readTriplesGo_ok (contents : List ℕ) (fsize : ℕ) :
    ∀ (n i : ℕ), fsize - i ≤ n → i ≤ fsize → (fsize - i) % 3 = 0 →
      fsize ≤ contents.length →
      ∃ l, readTriplesGo contents fsize i n = .ok l ∧
        l.length = (fsize - i) / 3 ∧
        ∀ j, j < l.length →
          l[j]? = some (contents.getD (i + 3 * j) 0,
                        contents.getD (i + 3 * j + 1) 0,
                        contents.getD (i + 3 * j + 2) 0) := by
  intro n
  induction n with
  | zero =>
    intro i hn _hle hmod _hlen
    refine ⟨[], rfl, by simp; omega, ?_⟩
    intro j hj
    simp at hj
  | succ n ih =>
    intro i hn hle hmod hlen
    by_cases hi : i < fsize
    · have h3 : i + 3 ≤ fsize := by omega
      have hi0 : i < contents.length := by omega
      have hi1 : i + 1 < contents.length := by omega
      have hi2 : i + 2 < contents.length := by omega
      obtain ⟨l, hl, hll, hlj⟩ := ih (i + 3) (by omega) h3 (by omega) hlen
      refine ⟨(contents.getD i 0, contents.getD (i + 1) 0,
               contents.getD (i + 2) 0) :: l, ?_, ?_, ?_⟩
      · simp only [readTriplesGo]
        rw [if_pos hi, readByte_ok_of_lt contents i hi0, except_bind_ok,
          readByte_ok_of_lt contents (i + 1) hi1, except_bind_ok,
          readByte_ok_of_lt contents (i + 2) hi2, except_bind_ok,
          hl, except_bind_ok]
        rfl
      · simp only [List.length_cons, hll]
        omega
      · intro j hj
        cases j with
        | zero => simp
        | succ j' =>
          simp only [List.getElem?_cons_succ]
          have hj' : j' < l.length := by
            simp only [List.length_cons] at hj
            omega
          have e1 : i + 3 + 3 * j' = i + 3 * (j' + 1) := by ring
          rw [hlj j' hj', e1]
    · have hieq : fsize - i = 0 := by omega
      refine ⟨[], ?_, by simp [hieq], ?_⟩
      · simp only [readTriplesGo]
        rw [if_neg hi]
        rfl
      · intro j hj
        simp at hj

/-- Failure behaviour of the pixel loop: when the actual file is shorter
than the declared size and the loop has at least one iteration left, some
byte access goes out of range and the loop raises `IndexError`. -/
theorem readTriplesGo_err (contents : List ℕ) (fsize : ℕ) :
    ∀ (n i : ℕ), fsize - i ≤ n → i < fsize → (fsize - i) % 3 = 0 →
      contents.length < fsize →
      readTriplesGo contents fsize i n = .error .indexError := by
  intro n
  induction n with
  | zero =>
    intro i hn hi _ _
    omega
  | succ n ih =>
    intro i hn hi hmod hlen
    simp only [readTriplesGo]
    rw [if_pos hi]
    by_cases h0 : i < contents.length
    · rw [readByte_ok_of_lt contents i h0, except_bind_ok]
      by_cases h1 : i + 1 < contents.length
      · rw [readByte_ok_of_lt contents (i + 1) h1, except_bind_ok]
        by_cases h2 : i + 2 < contents.length
        · rw [readByte_ok_of_lt contents (i + 2) h2, except_bind_ok]
          have hrec : i + 3 < fsize := by omega
          rw [ih (i + 3) (by omega) hrec (by omega) hlen, except_bind_err]
        · rw [readByte_err_of_le contents (i + 2) (by omega), except_bind_err]
      · rw [readByte_err_of_le contents (i + 1) (by omega), except_bind_err]
    · rw [readByte_err_of_le contents i (by omega), except_bind_err]

/-- Success behaviour of `readTriples` (the loop from `sdata`). -/
theorem readTriples_ok_of (contents : List ℕ) (fsize sdata : ℕ)
    (hle : sdata ≤ fsize) (hmod : (fsize - sdata) % 3 = 0)
    (hlen : fsize ≤ contents.length) :
    ∃ l, readTriples contents fsize sdata = .ok l ∧
      l.length = (fsize - sdata) / 3 ∧
      ∀ j, j < l.length →
        l[j]? = some (contents.getD (sdata + 3 * j) 0,
                      contents.getD (sdata + 3 * j + 1) 0,
                      contents.getD (sdata + 3 * j + 2) 0) :=
  readTriplesGo_ok contents fsize (fsize - sdata) sdata le_rfl hle hmod hlen

/-- Failure behaviour of `readTriples` on a file shorter than declared. -/
theorem readTriples_err_of (contents : List ℕ) (fsize sdata : ℕ)
    (hlt : sdata < fsize) (hmod : (fsize - sdata) % 3 = 0)
    (hlen : contents.length < fsize) :
    readTriples contents fsize sdata = .error .indexError :=
  readTriplesGo_err contents fsize (fsize - sdata) sdata le_rfl hlt hmod hlen

/-- Unfolding of `import_font_bmp` once all its reads are known to
succeed: the remaining behaviour is exactly the reshape check. -/
theorem import_font_bmp_eq (contents : List ℕ) (fsize sdata W H bpp : ℕ)
    (pix : List (ℕ × ℕ × ℕ))
    (h2 : decodeU32 contents 2 = .ok fsize)
    (h10 : readByte contents 10 = .ok sdata)
    (h18 : decodeU32 contents 18 = .ok W)
    (h22 : decodeU32 contents 22 = .ok H)
    (h28 : readByte contents 28 = .ok bpp)
    (htr : readTriples contents fsize sdata = .ok pix) :
    import_font_bmp contents =
      if 3 * pix.length = W * H * (bpp / 8) then .ok ⟨W, H, bpp / 8, pix⟩
      else .error .reshapeError := by
  unfold import_font_bmp
  rw [h2, except_bind_ok, h10, except_bind_ok, h18, except_bind_ok,
    h22, except_bind_ok, h28, except_bind_ok, htr, except_bind_ok]
  split <;> rfl

/-- Inversion of a successful `import_font_bmp`: all header reads and the
pixel loop succeeded, and the reshape check held. -/
theorem import_font_bmp_ok_inv (contents : List ℕ) (img : FontImg)
    (h : import_font_bmp contents = .ok img) :
    ∃ fsize sdata W H bpp pix,
      decodeU32 contents 2 = .ok fsize ∧ readByte contents 10 = .ok sdata ∧
      decodeU32 contents 18 = .ok W ∧ decodeU32 contents 22 = .ok H ∧
      readByte contents 28 = .ok bpp ∧
      readTriples contents fsize sdata = .ok pix ∧
      3 * pix.length = W * H * (bpp / 8) ∧
      img = ⟨W, H, bpp / 8, pix⟩ := by
  unfold import_font_bmp at h
  cases h2 : decodeU32 contents 2 with
  | error e => rw [h2, except_bind_err] at h; exact absurd h (by simp)
  | ok fsize =>
  rw [h2, except_bind_ok] at h
  cases h10 : readByte contents 10 with
  | error e => rw [h10, except_bind_err] at h; exact absurd h (by simp)
  | ok sdata =>
  rw [h10, except_bind_ok] at h
  cases h18 : decodeU32 contents 18 with
  | error e => rw [h18, except_bind_err] at h; exact absurd h (by simp)
  | ok W =>
  rw [h18, except_bind_ok] at h
  cases h22 : decodeU32 contents 22 with
  | error e => rw [h22, except_bind_err] at h; exact absurd h (by simp)
  | ok H =>
  rw [h22, except_bind_ok] at h
  cases h28 : readByte contents 28 with
  | error e => rw [h28, except_bind_err] at h; exact absurd h (by simp)
  | ok bpp =>
  rw [h28, except_bind_ok] at h
  cases htr : readTriples contents fsize sdata with
  | error e => rw [htr, except_bind_err] at h; exact absurd h (by simp)
  | ok pix =>
  rw [htr, except_bind_ok] at h
  by_cases hc : 3 * pix.length = W * H * (bpp / 8)
  · rw [if_pos hc] at h
    refine ⟨fsize, sdata, W, H, bpp, pix, rfl, rfl, rfl, rfl, rfl, htr, hc, ?_⟩
    have := Except.ok.inj h
    exact this.symm
  · rw [if_neg hc] at h
    exact absurd h (by simp)

/-- A minimal well-formed 24-bit font bitmap file: declared file size 35
(bytes 2..5), data start 32 (byte 10), width 1 (bytes 18..21), height 1
(bytes 22..25), bits-per-pixel 24 (byte 28), and one RGB pixel `(7,8,9)`
at offsets 32..34. -/
def fileA : List ℕ :=
  [66, 77, 35, 0, 0, 0, 0, 0, 0, 0, 32, 0, 0, 0, 0, 0, 0, 0,
   1, 0, 0, 0, 1, 0, 0, 0, 0, 0, 24, 0, 0, 0, 7, 8, 9]

/-- `fileA` with byte 11 changed from 0 to 1: under a little-endian 32-bit
reading of the data-start field this would declare data start
`32 + 256 = 288`. -/
def fileB : List ℕ := fileA.set 11 1

/-- `fileA` with the bits-per-pixel byte (offset 28) changed to 8. -/
def fileC : List ℕ := fileA.set 28 8

/-- C6 counterexample: the loader reads the pixel-data start offset as the
single byte at offset 10, not as a little-endian 32-bit integer.  `fileB`
differs from `fileA` only at byte 11 (the second byte of that field); a
32-bit reading would give data start 288, past the end of the 35-byte
file (an empty pixel region, hence a reshape failure), yet the loader
decodes `fileB` identically to `fileA`, successfully reading the pixel at
offset 32. -/
theorem import_font_bmp_offset10_single_byte :
    fileB = fileA.set 11 1 ∧
    fileA[11]? = some 0 ∧ fileB[11]? = some 1 ∧
    readByte fileB 10 = .ok 32 ∧
    decodeU32 fileB 10 = .ok 288 ∧
    fileB.length = 35 ∧
    import_font_bmp fileA = .ok ⟨1, 1, 3, [(7, 8, 9)]⟩ ∧
    import_font_bmp fileB = .ok ⟨1, 1, 3, [(7, 8, 9)]⟩ ∧
    import_font_bmp fileB = import_font_bmp fileA := by
  have hA : import_font_bmp fileA = .ok ⟨1, 1, 3, [(7, 8, 9)]⟩ := rfl
  have hB : import_font_bmp fileB = .ok ⟨1, 1, 3, [(7, 8, 9)]⟩ := rfl
  exact ⟨rfl, rfl, rfl, rfl, rfl, rfl, hA, hB, hB.trans hA.symm⟩

/-- C5 counterexample: a file whose declared width, height and data region
satisfy `data_end - data_start = W * H * 3` but whose bits-per-pixel field
is 8 fails to load (the reshape to `(W, H, bytes_px)` needs
`3 * count = W * H * bytes_px`), refuting the claim that such a file
always loads into a `W * H` grid. -/
theorem import_font_bmp_bpp8_fails :
    decodeU32 fileC 2 = .ok 35 ∧ readByte fileC 10 = .ok 32 ∧
    decodeU32 fileC 18 = .ok 1 ∧ decodeU32 fileC 22 = .ok 1 ∧
    readByte fileC 28 = .ok 8 ∧ fileC.length = 35 ∧
    35 - 32 = 1 * 1 * 3 ∧
    import_font_bmp fileC = .error .reshapeError :=
  ⟨rfl, rfl, rfl, rfl, rfl, rfl, rfl, rfl⟩

/-- C5 (amended): for a file whose bits-per-pixel field is 24, whose
actual length equals the declared file size, and whose data region is
`3 * W * H` bytes, loading succeeds with exactly `W * H` pixel triples;
the same file truncated by one byte fails; and any successful load yields
exactly `W * H` triples. -/
theorem import_font_bmp_roundtrip (contents : List ℕ) (fsize sdata W H : ℕ)
    (h2 : decodeU32 contents 2 = .ok fsize)
    (h10 : readByte contents 10 = .ok sdata)
    (h18 : decodeU32 contents 18 = .ok W)
    (h22 : decodeU32 contents 22 = .ok H)
    (h28 : readByte contents 28 = .ok 24)
    (hs : sdata ≤ fsize)
    (hlen : contents.length = fsize)
    (hpos : 0 < W * H) :
    (fsize - sdata = 3 * (W * H) →
       ∃ img, import_font_bmp contents = .ok img ∧
         img.width = W ∧ img.height = H ∧ img.pixels.length = W * H) ∧
    (fsize - sdata = 3 * (W * H) →
       ∃ e, import_font_bmp contents.dropLast = .error e) ∧
    (∀ img, import_font_bmp contents = .ok img → img.pixels.length = W * H) := by
  refine ⟨?_, ?_, ?_⟩
  · intro hregion
    obtain ⟨pix, htr, hpl, _⟩ :=
      readTriples_ok_of contents fsize sdata hs (by omega) (le_of_eq hlen.symm)
    have himp := import_font_bmp_eq contents fsize sdata W H 24 pix
      h2 h10 h18 h22 h28 htr
    have hplWH : pix.length = W * H := by omega
    rw [if_pos (by rw [hplWH]; ring)] at himp
    exact ⟨⟨W, H, 24 / 8, pix⟩, himp, rfl, rfl, hplWH⟩
  · intro hregion
    cases himp : import_font_bmp contents.dropLast with
    | error e => exact ⟨e, rfl⟩
    | ok img =>
      exfalso
      obtain ⟨fs', sd', W', H', bpp', pix, hh2, hh10, hh18, hh22, _hh28, htr', _hc, _him⟩ :=
        import_font_bmp_ok_inv contents.dropLast img himp
      have hfs : fs' = fsize := by
        have h := decodeU32_dropLast contents 2 fs' hh2
        rw [h2] at h
        exact (Except.ok.inj h).symm
      have hsd : sd' = sdata := by
        have h := readByte_dropLast contents 10 sd' hh10
        rw [h10] at h
        exact (Except.ok.inj h).symm
      rw [hfs, hsd] at htr'
      have herr : readTriples contents.dropLast fsize sdata = .error .indexError := by
        refine readTriples_err_of contents.dropLast fsize sdata (by omega) (by omega) ?_
        rw [List.length_dropLast, hlen]
        omega
      rw [herr] at htr'
      exact absurd htr' (by simp)
  · intro img himp
    obtain ⟨fs', sd', W', H', bpp', pix, hh2, hh10, hh18, hh22, hh28, _htr', hc, him⟩ :=
      import_font_bmp_ok_inv contents img himp
    have hW : W' = W := by
      rw [hh18] at h18
      exact Except.ok.inj h18
    have hH : H' = H := by
      rw [hh22] at h22
      exact Except.ok.inj h22
    have hbpp : bpp' = 24 := by
      rw [hh28] at h28
      exact Except.ok.inj h28
    rw [hW, hH, hbpp] at hc
    norm_num at hc
    rw [him]
    simpa using by omega

/-- Witness for C5 at the concrete file `fileA` (`W = H = 1`, data region
of 3 bytes): load succeeds with one pixel, and the truncated file fails. -/
theorem import_font_bmp_roundtrip_witness :
    (∃ img, import_font_bmp fileA = .ok img ∧
       img.width = 1 ∧ img.height = 1 ∧ img.pixels.length = 1 * 1) ∧
    (∃ e, import_font_bmp fileA.dropLast = .error e) := by
  have h := import_font_bmp_roundtrip fileA 35 32 1 1
    rfl rfl rfl rfl rfl (by norm_num) rfl (by norm_num)
  exact ⟨h.1 (by norm_num), h.2.1 (by norm_num)⟩

/-- C6 (amended): the loader's behaviour is fully determined by: file size
as little-endian 32-bit at offset 2, data start as the single byte at
offset 10, width and height as little-endian 32-bit at offsets 18 and 22,
bits-per-pixel as the byte at offset 28 with `bytesPerPixel = bpp / 8`
(integer division), and a pixel read of fixed 3-byte stride from the data
start to the declared file size, regardless of the declared bit depth. -/
theorem import_header_extraction (contents : List ℕ) (fsize sdata W H bpp : ℕ)
    (h2 : decodeU32 contents 2 = .ok fsize)
    (h10 : readByte contents 10 = .ok sdata)
    (h18 : decodeU32 contents 18 = .ok W)
    (h22 : decodeU32 contents 22 = .ok H)
    (h28 : readByte contents 28 = .ok bpp)
    (hs : sdata ≤ fsize) (hmod : (fsize - sdata) % 3 = 0)
    (hlen : fsize ≤ contents.length) :
    ∃ pix : List (ℕ × ℕ × ℕ),
      pix.length = (fsize - sdata) / 3 ∧
      (∀ j, j < pix.length →
        pix[j]? = some (contents.getD (sdata + 3 * j) 0,
                        contents.getD (sdata + 3 * j + 1) 0,
                        contents.getD (sdata + 3 * j + 2) 0)) ∧
      import_font_bmp contents =
        (if 3 * pix.length = W * H * (bpp / 8) then .ok ⟨W, H, bpp / 8, pix⟩
         else .error .reshapeError) := by
  obtain ⟨pix, htr, hl, hidx⟩ := readTriples_ok_of contents fsize sdata hs hmod hlen
  exact ⟨pix, hl, hidx,
    import_font_bmp_eq contents fsize sdata W H bpp pix h2 h10 h18 h22 h28 htr⟩

/-- Witness for C6 at the concrete file `fileA`. -/
theorem import_header_extraction_witness :
    ∃ pix : List (ℕ × ℕ × ℕ),
      pix.length = (35 - 32) / 3 ∧
      import_font_bmp fileA =
        (if 3 * pix.length = 1 * 1 * (24 / 8) then .ok ⟨1, 1, 24 / 8, pix⟩
         else .error .reshapeError) := by
  obtain ⟨pix, h1, _h2, h3⟩ := import_header_extraction fileA 35 32 1 1 24
    rfl rfl rfl rfl rfl (by norm_num) (by norm_num) (by decide)
  exact ⟨pix, h1, h3⟩

end Text2D
